import Mathlib

/-!
Verification of the SSFN simple console bitmap renderer
(`src/kernel/init/framebuffer/ssfn.h`, function `ssfn_putc`).

The embedding models the configuration the kernel console uses:
`SSFN_CONSOLEBITMAP_TRUECOLOR` (32-bit pixels, so `sizeof(SSFN_PIXEL) = 4`)
together with `SSFN_CONSOLEBITMAP_CONTROL` (the tab/newline/scroll block at
lines 282-295).  The font image is a byte-addressed read-only memory; the
destination frame buffer is a byte-addressed memory in which a pixel store
writes the 32-bit pixel value at the pixel's base byte address.  C `int`
variables are modelled as `Int`, byte reads as `Nat` values reduced mod 256,
and the C `%` on `int` (truncation towards zero) as `Int.tmod`.

Every pixel store performed by the renderer is additionally recorded in a
ghost write log (`PixelWrite`), which lets frame conditions ("no write past
the clip edge", "transparent background touches nothing but foreground
bits") be stated about exactly the stores the code performs.
-/

namespace SSFN

/-- A font image: a byte-addressed, read-only memory.  `fbyte` below reduces
every read mod 256, matching `uint8_t` loads. -/
structure Font where
  data : Nat → Nat

/-- Read one `uint8_t` of the font image. -/
def fbyte (f : Font) (i : Nat) : Nat := f.data i % 256

/-- The `characters_offs` header field: little-endian `uint32_t` at byte
offset 16 of `ssfn_font_t`. -/
def charactersOffs (f : Font) : Nat :=
  fbyte f 16 + fbyte f 17 * 256 + fbyte f 18 * 65536 + fbyte f 19 * 16777216

/-- The `height` header field (byte offset 11 of `ssfn_font_t`). -/
def fontHeight (f : Font) : Nat := fbyte f 11

/-- Destination frame buffer `ssfn_buf_t`.  `mem` is the byte-addressed pixel
memory behind `ptr`; `ptrNull` records whether `ptr` is the null pointer.
`w`/`h`/`x`/`y` are C `int`s, `p` (pitch) is `uint16_t`, `fg`/`bg` are
`uint32_t` colors (`bg = 0` means transparent). -/
structure SSFNDst where
  ptrNull : Bool
  mem : Int → Nat
  w : Int
  h : Int
  p : Nat
  x : Int
  y : Int
  fg : Nat
  bg : Nat

/-- Error code `SSFN_OK`. -/
def SSFN_OK : Int := 0

/-- Error code `SSFN_ERR_INVINP` (invalid input). -/
def SSFN_ERR_INVINP : Int := -4

/-- Error code `SSFN_ERR_NOGLYPH` (glyph not found). -/
def SSFN_ERR_NOGLYPH : Int := -7

/-- One ghost log entry for a pixel store: the byte address of the stored
pixel, the pixel column `ssfn_dst.x + l` as the code computes it, whether the
store came from a set foreground bit of a bitmap fragment, and the stored
32-bit value. -/
structure PixelWrite where
  addr : Int
  col : Int
  fgBit : Bool
  val : Nat
deriving DecidableEq

/-- Store a 32-bit pixel value at byte address `a`. -/
def store (mem : Int → Nat) (a : Int) (v : Nat) : Int → Nat :=
  fun b => if b = a then v else mem b

/--
The character table scan of `ssfn_putc` (lines 276-281):

    for(ptr = (uint8_t*)ssfn_src + ssfn_src->characters_offs, i = 0; i < 0x110000; i++) {
        if(ptr[0] == 0xFF) { i += 65535; ptr++; }
        else if((ptr[0] & 0xC0) == 0xC0) { j = (((ptr[0] & 0x3F) << 8) | ptr[1]); i += j; ptr += 2; }
        else if((ptr[0] & 0xC0) == 0x80) { j = (ptr[0] & 0x3F); i += j; ptr++; }
        else { if((uint32_t)i == unicode) { chr = ptr; break; } ptr += 6 + ptr[1] * (ptr[0] & 0x40 ? 6 : 5); }
    }

`ptrOff` is the table pointer as an offset into the font image and `i` the
running code point counter; the result is the offset of the located glyph
record (C `chr`), or `none` when the loop exits with `i ≥ 0x110000`.
The trailing `+ 1` on each skip branch is the loop's own `i++`, which runs on
every iteration.  `fuel` is a structural bound on the number of iterations;
since every iteration increases `i` by at least one, `0x110000` units of fuel
are enough for a scan started at `i = 0`, and the fuel never runs out before
the loop guard `i < 0x110000` exits the loop.
-/
def scanF (f : Font) (u : Nat) : Nat → Nat → Nat → Option Nat
  | 0, _, _ => none
  | fuel + 1, ptrOff, i =>
    if i < 0x110000 then
      if fbyte f ptrOff = 0xFF then
        scanF f u fuel (ptrOff + 1) (i + 65535 + 1)
      else if fbyte f ptrOff &&& 0xC0 = 0xC0 then
        scanF f u fuel (ptrOff + 2)
          (i + (((fbyte f ptrOff &&& 0x3F) <<< 8) ||| fbyte f (ptrOff + 1)) + 1)
      else if fbyte f ptrOff &&& 0xC0 = 0x80 then
        scanF f u fuel (ptrOff + 1) (i + (fbyte f ptrOff &&& 0x3F) + 1)
      else if i = u then
        some ptrOff
      else
        scanF f u fuel
          (ptrOff + 6 + fbyte f (ptrOff + 1) * (if fbyte f ptrOff &&& 0x40 ≠ 0 then 6 else 5))
          (i + 1)
    else none

/--
Inner loop of the scroll path (line 292):

    for(l = 0; l < ssfn_dst.p; l++) ssfn_dst.ptr[k * ssfn_dst.p + l] = ssfn_dst.ptr[(k + i) * ssfn_dst.p + l];

`base = k * p`, `l` is the running column, `rem = p - l` the remaining
iterations. -/
def ssfn_scrollRowGo (hgt p : Nat) : Nat → Nat → Int → (Int → Nat) → (Int → Nat)
  | 0, _, _, mem => mem
  | rem + 1, l, base, mem =>
    ssfn_scrollRowGo hgt p rem (l + 1) base
      (store mem (base + (l : Int)) (mem (base + (l : Int) + (hgt : Int) * (p : Int))))

/-- Outer loop of the scroll path (lines 291-292): rows `k = 0, 1, ...` each
copied from the row `hgt` cell heights further down (`rows` iterations
remain). -/
def ssfn_scrollGo (hgt p : Nat) : Nat → Nat → (Int → Nat) → (Int → Nat)
  | 0, _, mem => mem
  | rows + 1, k, mem =>
    ssfn_scrollGo hgt p rows (k + 1) (ssfn_scrollRowGo hgt p p 0 ((k : Int) * (p : Int)) mem)

/--
The scroll-on-overflow step of `ssfn_putc` (lines 283 and 289-293), with
`hgt = ssfn_src->height`:

    i = ssfn_src->height; j = ssfn_dst.h - i - (ssfn_dst.h % i);
    ...
    if(j > 0 && ssfn_dst.y > j) {
        ssfn_dst.y = j;
        for(k = 0; k < j; k++)
            for(l = 0; l < ssfn_dst.p; l++) ssfn_dst.ptr[k * ssfn_dst.p + l] = ssfn_dst.ptr[(k + i) * ssfn_dst.p + l];
    }
-/
def ssfn_scrollStep (hgt : Nat) (dst : SSFNDst) : SSFNDst :=
  let j : Int := dst.h - (hgt : Int) - Int.tmod dst.h (hgt : Int)
  if 0 < j ∧ j < dst.y then
    { dst with y := j, mem := ssfn_scrollGo hgt dst.p j.toNat 0 dst.mem }
  else dst

/-- State threaded through the glyph-drawing loops of `ssfn_putc`: the local
row counter `y` (starts at 0, line 271), the output pointer `o` as a byte
address, the pixel memory and the ghost write log. -/
structure BlitSt where
  y : Int
  o : Int
  mem : Int → Nat
  log : List PixelWrite

/--
One background-fill row (lines 305-306 and 321-322):

    for(p = o, j = 0; j < chr[2] && (!w || ssfn_dst.x + j < w); j++, p++)
        *p = ssfn_dst.bg;

`rem = chr[2] - j` iterations remain, `j` is the running column index and
`pB` the byte address of `p`. -/
def bgRowGo (dst : SSFNDst) (w : Int) :
    Nat → Nat → Int → (Int → Nat) → List PixelWrite → ((Int → Nat) × List PixelWrite)
  | 0, _, _, mem, log => (mem, log)
  | rem + 1, j, pB, mem, log =>
    if w = 0 ∨ dst.x + (j : Int) < w then
      bgRowGo dst w rem (j + 1) (pB + 4) (store mem pB dst.bg)
        ((⟨pB, dst.x + (j : Int), false, dst.bg⟩ : PixelWrite) :: log)
    else (mem, log)

/--
Background-fill rows (lines 304-307, and the trailing fill at lines 320-323):

    for(; y < LIMIT && (!ssfn_dst.h || ssfn_dst.y + y < ssfn_dst.h); y++, o += s) { <row> }

with `LIMIT = ptr[1]` resp. `chr[3]`.  The `y < LIMIT` guard is encoded by
the fuel argument `(LIMIT - y).toNat`, which each iteration decrements while
`y` increases by one; the vertical clip is checked inside.  `cellW = chr[2]`
and `s` is the row stride in pixels (`ssfn_dst.p / sizeof(SSFN_PIXEL)`). -/
def bgRows (dst : SSFNDst) (w : Int) (cellW s : Nat) : Nat → BlitSt → BlitSt
  | 0, st => st
  | fuel + 1, st =>
    if dst.h = 0 ∨ dst.y + st.y < dst.h then
      let ml := bgRowGo dst w cellW 0 st.o st.mem st.log
      bgRows dst w cellW s fuel ⟨st.y + 1, st.o + 4 * (s : Int), ml.1, ml.2⟩
    else st

/--
One row of the bitmap decoder (lines 311-317):

    for(p = o, l = 0; l < k; l++, p++, m <<= 1) {
        if(m > 0x80) { frg++; m = 1; }
        if(ssfn_dst.x + l >= 0 && (!w || ssfn_dst.x + l < w)) {
            if(*frg & m) *p = ssfn_dst.fg; else
            if(ssfn_dst.bg) *p = ssfn_dst.bg;
        }
    }

`rem = k - l` iterations remain; `pB` is the byte address of `p`, `m` the bit
mask and `frg` the payload pointer (both of which persist across rows). -/
def bitRowGo (f : Font) (dst : SSFNDst) (w : Int) :
    Nat → Nat → Int → Nat → Nat → (Int → Nat) → List PixelWrite →
      (Nat × Nat × (Int → Nat) × List PixelWrite)
  | 0, _, _, m, frg, mem, log => (m, frg, mem, log)
  | rem + 1, l, pB, m, frg, mem, log =>
    let m₁ := if 0x80 < m then 1 else m
    let frg₁ := if 0x80 < m then frg + 1 else frg
    if 0 ≤ dst.x + (l : Int) ∧ (w = 0 ∨ dst.x + (l : Int) < w) then
      if fbyte f frg₁ &&& m₁ ≠ 0 then
        bitRowGo f dst w rem (l + 1) (pB + 4) (2 * m₁) frg₁ (store mem pB dst.fg)
          ((⟨pB, dst.x + (l : Int), true, dst.fg⟩ : PixelWrite) :: log)
      else if dst.bg ≠ 0 then
        bitRowGo f dst w rem (l + 1) (pB + 4) (2 * m₁) frg₁ (store mem pB dst.bg)
          ((⟨pB, dst.x + (l : Int), false, dst.bg⟩ : PixelWrite) :: log)
      else bitRowGo f dst w rem (l + 1) (pB + 4) (2 * m₁) frg₁ mem log
    else bitRowGo f dst w rem (l + 1) (pB + 4) (2 * m₁) frg₁ mem log

/--
The bitmap row loop (line 310):

    for(m = 1; j && (!ssfn_dst.h || ssfn_dst.y + y < ssfn_dst.h); j--, y++, o += s) { <row> }

`jc` is the remaining row counter `j` (started at `frg[1] + 1`), and `m`,
`frg` persist across rows exactly as in the source. -/
def bitRows (f : Font) (dst : SSFNDst) (w : Int) (k s : Nat) :
    Nat → Int → Int → Nat → Nat → (Int → Nat) → List PixelWrite → BlitSt
  | 0, y, o, _, _, mem, log => ⟨y, o, mem, log⟩
  | jc + 1, y, o, m, frg, mem, log =>
    if dst.h = 0 ∨ dst.y + y < dst.h then
      let r := bitRowGo f dst w k 0 o m frg mem log
      bitRows f dst w k s jc (y + 1) (o + 4 * (s : Int)) r.1 r.2.1 r.2.2.1 r.2.2.2
    else ⟨y, o, mem, log⟩

/--
The body of the fragment loop of `ssfn_putc` (lines 299-317) for the
fragment reference at offset `ptrOff` (C `ptr`): the `0xFFFF` sentinel skip,
the fragment offset computation (3- or 4-byte little-endian according to the
`chr[0] & 0x40` flag), the bitmap type tag check `(frg[0] & 0xE0) != 0x80`,
the background fill (or `y`/`o` skip when the background is transparent) up
to the fragment's starting row `ptr[1]`, and the bitmap rows with
`k = ((frg[0] & 0x1F) + 1) << 3` pixels per row and `frg[1] + 1` rows.

`fragOffset` is the fragment offset computation of lines 300-301 (3- or
4-byte little-endian according to the `chr[0] & 0x40` flag); `fragStep` below
is the loop body itself. -/
def fragOffset (f : Font) (chrOff ptrOff : Nat) : Nat :=
  if fbyte f chrOff &&& 0x40 ≠ 0 then
    (fbyte f (ptrOff + 5) <<< 24) ||| (fbyte f (ptrOff + 4) <<< 16) |||
      (fbyte f (ptrOff + 3) <<< 8) ||| fbyte f (ptrOff + 2)
  else (fbyte f (ptrOff + 4) <<< 16) ||| (fbyte f (ptrOff + 3) <<< 8) ||| fbyte f (ptrOff + 2)

def fragStep (f : Font) (dst : SSFNDst) (w : Int) (chrOff s : Nat) (ptrOff : Nat)
    (st : BlitSt) : BlitSt :=
  if fbyte f ptrOff = 255 ∧ fbyte f (ptrOff + 1) = 255 then st
  else
    let frg0 := fragOffset f chrOff ptrOff
    if fbyte f frg0 &&& 0xE0 ≠ 0x80 then st
    else
      let st₁ : BlitSt :=
        if dst.bg ≠ 0 then
          bgRows dst w (fbyte f (chrOff + 2)) s (((fbyte f (ptrOff + 1) : Int) - st.y).toNat) st
        else
          ⟨(fbyte f (ptrOff + 1) : Int),
            st.o + ((fbyte f (ptrOff + 1) : Int) - st.y) * (s : Int) * 4, st.mem, st.log⟩
      let k := ((fbyte f frg0 &&& 0x1F) + 1) <<< 3
      bitRows f dst w k s (fbyte f (frg0 + 1) + 1) st₁.y st₁.o 1 (frg0 + 2) st₁.mem st₁.log

/-- The fragment loop of `ssfn_putc` (line 298):

    for(i = 0; i < chr[1]; i++, ptr += chr[0] & 0x40 ? 6 : 5) { <fragStep> }

`rem` counts the remaining fragments and `step` is 6 or 5 bytes. -/
def fragLoopGo (f : Font) (dst : SSFNDst) (w : Int) (chrOff s step : Nat) :
    Nat → Nat → BlitSt → BlitSt
  | 0, _, st => st
  | rem + 1, ptrOff, st =>
    fragLoopGo f dst w chrOff s step rem (ptrOff + step) (fragStep f dst w chrOff s ptrOff st)

/-- Result of the glyph-drawing phase: the returned status, the updated
destination buffer, and the ghost write log of all pixel stores. -/
structure RenderRes where
  ret : Int
  dst : SSFNDst
  log : List PixelWrite

/--
The glyph-drawing phase of `ssfn_putc` (lines 297-325), entered with the
located glyph record at `chrOff` (C `chr`) after the control block updated
the cursor:

    ptr = chr + 6; o = (SSFN_PIXEL*)(ssfn_dst.ptr + ssfn_dst.y * ssfn_dst.p + ssfn_dst.x * sizeof(SSFN_PIXEL));
    for(i = 0; i < chr[1]; i++, ptr += chr[0] & 0x40 ? 6 : 5) { ... }
    if(ssfn_dst.bg) for(; y < chr[3] && (!ssfn_dst.h || ssfn_dst.y + y < ssfn_dst.h); y++, o += s) { ... }
    ssfn_dst.x += chr[4]; ssfn_dst.y += chr[5];
    return SSFN_OK;
-/
def ssfn_render (f : Font) (dst : SSFNDst) (w : Int) (chrOff : Nat) : RenderRes :=
  let s := dst.p / 4
  let step := if fbyte f chrOff &&& 0x40 ≠ 0 then 6 else 5
  let o0 : Int := dst.y * (dst.p : Int) + dst.x * 4
  let st1 := fragLoopGo f dst w chrOff s step (fbyte f (chrOff + 1)) (chrOff + 6)
    ⟨0, o0, dst.mem, []⟩
  let st2 :=
    if dst.bg ≠ 0 then
      bgRows dst w (fbyte f (chrOff + 2)) s (((fbyte f (chrOff + 3) : Int) - st1.y).toNat) st1
    else st1
  ⟨SSFN_OK,
    { dst with
        mem := st2.mem,
        x := dst.x + (fbyte f (chrOff + 4) : Int),
        y := dst.y + (fbyte f (chrOff + 5) : Int) },
    st2.log⟩

/--
The tab / line-wrap part of the control block (lines 284-287), with `chr` the
scan result:

    if(chr && w) {
        if(unicode == '\t') ssfn_dst.x -= ssfn_dst.x % chr[4];
        if(ssfn_dst.x + chr[4] > w) { ssfn_dst.x = 0; ssfn_dst.y += i; }
    }
-/
def ssfn_ctrl1 (f : Font) (dst : SSFNDst) (u : Nat) (w : Int) (hgt : Nat)
    (chr : Option Nat) : SSFNDst :=
  match chr with
  | some c =>
    if w ≠ 0 then
      let x₁ := if u = 9 then dst.x - Int.tmod dst.x (fbyte f (c + 4) : Int) else dst.x
      if x₁ + (fbyte f (c + 4) : Int) > w then
        { dst with x := 0, y := dst.y + (hgt : Int) }
      else { dst with x := x₁ }
    else dst
  | none => dst

/-- Instrumentation flag: `true` exactly when one of the two `%` operations of
the control block (lines 283 and 285) is evaluated with a zero divisor —
undefined behavior in C.  `ssfn_dst.h % i` is evaluated unconditionally at
line 283 (divisor `hgt = ssfn_src->height`); `ssfn_dst.x % chr[4]` is
evaluated only when a glyph was found, `w` is nonzero and the code point is
a tab (divisor `chr[4]`, the glyph's horizontal advance). -/
def ssfn_ubFlag (f : Font) (u : Nat) (w : Int) (hgt : Nat)
    (chr : Option Nat) : Bool :=
  if hgt = 0 then true
  else
    match chr with
    | some c => if w ≠ 0 ∧ u = 9 ∧ fbyte f (c + 4) = 0 then true else false
    | none => false

/-- Result of `ssfn_putc`: the returned status, the destination buffer
(`ssfn_dst` is updated in place by the C code), and the division-by-zero
instrumentation flag. -/
structure PutcResult where
  ret : Int
  dst : SSFNDst
  ub : Bool

/--
`ssfn_putc(unicode)` (lines 258-326) with `ssfn_src = src` and
`ssfn_dst = dst` made explicit parameters.  Order of operations exactly as in
the source: the invalid-input check (lines 273-274), `w = |ssfn_dst.w|`
(line 275), the character table scan (lines 276-281), the control block
(lines 282-295: tab/wrap, newline advance, scroll-on-overflow, early return
for CR/LF), the glyph-not-found return (line 296), and the glyph-drawing
phase (lines 297-325). -/
def ssfn_putc (src : Option Font) (dst : SSFNDst) (unicode : Nat) : PutcResult :=
  match src with
  | none => ⟨SSFN_ERR_INVINP, dst, false⟩
  | some f =>
    if fbyte f 0 ≠ 83 ∨ fbyte f 1 ≠ 70 ∨ fbyte f 2 ≠ 78 ∨ fbyte f 3 ≠ 50 ∨
        dst.ptrNull = true ∨ dst.p = 0 then
      ⟨SSFN_ERR_INVINP, dst, false⟩
    else
      let w : Int := if dst.w < 0 then -dst.w else dst.w
      let chr := scanF f unicode 0x110000 (charactersOffs f) 0
      let hgt := fontHeight f
      let ub := ssfn_ubFlag f unicode w hgt chr
      let dst₁ := ssfn_ctrl1 f dst unicode w hgt chr
      let dst₂ := if unicode = 10 then { dst₁ with y := dst₁.y + (hgt : Int) } else dst₁
      let dst₃ := ssfn_scrollStep hgt dst₂
      if unicode = 13 ∨ unicode = 10 then ⟨SSFN_OK, { dst₃ with x := 0 }, ub⟩
      else
        match chr with
        | none => ⟨SSFN_ERR_NOGLYPH, dst₃, ub⟩
        | some c =>
          let r := ssfn_render f dst₃ w c
          ⟨r.ret, r.dst, ub⟩

/-- The invalid-input condition of lines 273-274: null font, bad magic, null
destination pointer, or zero pitch. -/
def ssfn_badInput (src : Option Font) (dst : SSFNDst) : Prop :=
  match src with
  | none => True
  | some f =>
    fbyte f 0 ≠ 83 ∨ fbyte f 1 ≠ 70 ∨ fbyte f 2 ≠ 78 ∨ fbyte f 3 ≠ 50 ∨
      dst.ptrNull = true ∨ dst.p = 0

/-- Concrete font image: valid magic, cell height 2, characters table at
offset 32, and a characters table consisting solely of `0xFF` skip markers
(so every code point is absent: 17 × 65536 = 0x110000). -/
def fontA : Font :=
  ⟨fun i => [83, 70, 78, 50, 0, 0, 0, 0, 0, 0, 0, 2, 0, 0, 0, 0,
             32, 0, 0, 0, 0, 0, 0, 0, 0, 0, 0, 0, 0, 0, 0, 0].getD i 255⟩

/-- Like `fontA` but with cell height 4. -/
def fontB : Font :=
  ⟨fun i => [83, 70, 78, 50, 0, 0, 0, 0, 0, 0, 0, 4, 0, 0, 0, 0,
             32, 0, 0, 0, 0, 0, 0, 0, 0, 0, 0, 0, 0, 0, 0, 0].getD i 255⟩

/-- Concrete character table for scanner theorems: a two-byte skip marker
`0xC1 0x05` (skip count `(1 << 8) | 5 = 261`) followed by glyph records made
of zero bytes (a zero first byte is a record with zero fragments, so each
record is 6 bytes long). -/
def fontS : Font := ⟨fun i => [0xC1, 5].getD i 0⟩

/-- Concrete character table: a two-byte skip marker `0xC0 0x00` (skip count
0) followed by all-zero glyph records. -/
def fontC5 : Font := ⟨fun i => [0xC0, 0].getD i 0⟩

/-- Concrete glyph record at offset 0: narrow fragment offsets, 1 fragment,
cell width 1, cell height 1, zero advances; the fragment reference points at
offset 11, where a bitmap fragment (descriptor `0x80`, so 8 pixels per row;
row-count byte 0) with the single payload byte `0xFF` lives. -/
def fontG : Font := ⟨fun i => [0, 1, 1, 1, 0, 0, 0, 0, 11, 0, 0, 0x80, 0, 255].getD i 0⟩

/-- Bitmap payload for bit-order theorems: single byte `0x01`
(only bit 0 set). -/
def fontBit : Font := ⟨fun i => [1].getD i 0⟩

/-- Bitmap payload `0x80` (only bit 7 set). -/
def fontBit80 : Font := ⟨fun i => [0x80].getD i 0⟩

/-- Destination buffer: 0-filled memory, width 3, unbounded height, pitch 4,
cursor at origin, opaque white-ish foreground 1, transparent background. -/
def dstA : SSFNDst :=
  ⟨false, fun _ => 0, 3, 0, 4, 0, 0, 1, 0⟩

/-- Destination buffer whose memory holds its own address: width 3, height 5,
pitch 2, cursor at origin. -/
def dstB : SSFNDst :=
  ⟨false, fun a => a.toNat, 3, 5, 2, 0, 0, 1, 0⟩

/-- Destination buffer for the scroll theorems: memory holds address + 100,
unbounded width, height 6, pitch 2, cursor at (0, 5). -/
def dstC : SSFNDst :=
  ⟨false, fun a => (a + 100).toNat, 0, 6, 2, 0, 5, 1, 0⟩

/-- Destination buffer: 0-filled memory, width 3, unbounded height, pitch 32,
cursor at origin, foreground 1, transparent background. -/
def dstW3 : SSFNDst :=
  ⟨false, fun _ => 0, 3, 0, 32, 0, 0, 1, 0⟩

/-- Destination buffer: 0-filled memory, unbounded width and height,
pitch 32, cursor at origin, foreground 1, transparent background. -/
def dstT : SSFNDst :=
  ⟨false, fun _ => 0, 0, 0, 32, 0, 0, 1, 0⟩

/-- Destination buffer: memory filled with 7, unbounded width and height,
pitch 8, cursor at origin, foreground 5, transparent background. -/
def dstT1 : SSFNDst :=
  ⟨false, fun _ => 7, 0, 0, 8, 0, 0, 5, 0⟩

/-- Destination buffer: 0-filled memory, unbounded width and height,
pitch 32, cursor at origin, foreground 1, opaque background 2. -/
def dstBg : SSFNDst :=
  ⟨false, fun _ => 0, 0, 0, 32, 0, 0, 1, 2⟩

/-- Invariant tying the bitmap decoder's running `(m, frg)` pair to the
absolute bit index `E` counted from the start of the fragment payload at
`frg0`: at the top of the loop body either `m = 1 << (E % 8)` with `frg`
pointing at the byte holding bit `E`, or the previous iteration left
`m = 0x100` and `frg` one byte behind (the `m > 0x80` check at the top of
the body renormalises this case). -/
def maskRep (frg0 E m frg : Nat) : Prop :=
  (m = 1 <<< (E % 8) ∧ frg = frg0 + E / 8) ∨
    (0 < E ∧ E % 8 = 0 ∧ m = 256 ∧ frg = frg0 + E / 8 - 1)

theorem store_self (mem : Int → Nat) (a : Int) (v : Nat) : store mem a v a = v := by
  simp [store]

theorem store_other (mem : Int → Nat) (a b : Int) (v : Nat) (h : b ≠ a) :
    store mem a v b = mem b := by
  simp [store, h]

/-- Pointwise characterisation of one scroll row: addresses
`[base + l, base + l + rem)` receive the value one cell height further down,
everything else is untouched.  The reads always happen at or above the write
address (the source row is `hgt * p ≥ 0` bytes further), so every read sees
the original memory. -/
theorem ssfn_scrollRowGo_spec (hgt p : Nat) :
    ∀ (rem l : Nat) (base : Int) (mem : Int → Nat) (a : Int),
      ssfn_scrollRowGo hgt p rem l base mem a =
        if base + (l : Int) ≤ a ∧ a < base + (l : Int) + (rem : Int) then
          mem (a + (hgt : Int) * (p : Int))
        else mem a := by
  intro rem
  induction rem with
  | zero =>
    intro l base mem a
    simp only [ssfn_scrollRowGo]
    rw [if_neg]
    rintro ⟨h1, h2⟩
    simp only [Nat.cast_zero, add_zero] at h2
    omega
  | succ rem ih =>
    intro l base mem a
    have hp0 : 0 ≤ (hgt : Int) * (p : Int) := by positivity
    simp only [ssfn_scrollRowGo]
    rw [ih]
    simp only [store]
    push_cast
    split_ifs <;>
      first
        | rfl
        | omega
        | (exact congrArg mem (by omega))
        | (exact (congrArg mem (by omega)).symm)

/-- Pointwise characterisation of the whole scroll copy: addresses
`[k * p, (k + rows) * p)` receive the value `hgt * p` bytes further down,
everything else is untouched. -/
theorem ssfn_scrollGo_spec (hgt p : Nat) :
    ∀ (rows k : Nat) (mem : Int → Nat) (a : Int),
      ssfn_scrollGo hgt p rows k mem a =
        if (k : Int) * (p : Int) ≤ a ∧ a < ((k : Int) + (rows : Int)) * (p : Int) then
          mem (a + (hgt : Int) * (p : Int))
        else mem a := by
  intro rows
  induction rows with
  | zero =>
    intro k mem a
    simp only [ssfn_scrollGo]
    rw [if_neg]
    rintro ⟨h1, h2⟩
    simp only [Nat.cast_zero, add_zero] at h2
    linarith
  | succ rows ih =>
    intro k mem a
    have hp0 : 0 ≤ (hgt : Int) * (p : Int) := by positivity
    have hpp : 0 ≤ (p : Int) := by positivity
    have hrp : 0 ≤ (rows : Int) * (p : Int) := by positivity
    simp only [ssfn_scrollGo]
    rw [ih]
    clear ih
    simp only [ssfn_scrollRowGo_spec]
    push_cast
    have e1 : ((k : Int) + 1) * (p : Int) = (k : Int) * (p : Int) + (p : Int) := by ring
    have e2 : ((k : Int) + 1 + (rows : Int)) * (p : Int) =
        (k : Int) * (p : Int) + (rows : Int) * (p : Int) + (p : Int) := by ring
    have e3 : ((k : Int) + ((rows : Int) + 1)) * (p : Int) =
        (k : Int) * (p : Int) + (rows : Int) * (p : Int) + (p : Int) := by ring
    rw [e1, e2, e3]
    generalize (k : Int) * (p : Int) = KP
    generalize (rows : Int) * (p : Int) = RP at hrp ⊢
    generalize (hgt : Int) * (p : Int) = HP at hp0 ⊢
    split_ifs <;>
      first
        | rfl
        | (exact congrArg mem (by omega))
        | (exact (congrArg mem (by omega)).symm)
        | omega

/-- Claim C3 (amended): the scroll path triggers when, after the vertical
advance, the cursor `y` exceeds `j = h - cellHeight - (h % cellHeight)` (the
start of the last fully visible cell row) and `j > 0` — not when it exceeds
`h - cellHeight`.  Then the buffer bytes `[0, j*p)` each receive the byte one
cell height (`cellHeight * p` bytes) further down, every other byte is
untouched, and `y` is clamped to `j`. -/
theorem scroll_on_overflow (hgt : Nat) (dst : SSFNDst)
    (hj : 0 < dst.h - (hgt : Int) - Int.tmod dst.h (hgt : Int))
    (hy : dst.h - (hgt : Int) - Int.tmod dst.h (hgt : Int) < dst.y) :
    (ssfn_scrollStep hgt dst).y = dst.h - (hgt : Int) - Int.tmod dst.h (hgt : Int) ∧
      ∀ a : Int,
        (0 ≤ a ∧ a < (dst.h - (hgt : Int) - Int.tmod dst.h (hgt : Int)) * (dst.p : Int) →
          (ssfn_scrollStep hgt dst).mem a = dst.mem (a + (hgt : Int) * (dst.p : Int))) ∧
        (¬(0 ≤ a ∧ a < (dst.h - (hgt : Int) - Int.tmod dst.h (hgt : Int)) * (dst.p : Int)) →
          (ssfn_scrollStep hgt dst).mem a = dst.mem a) := by
  simp only [ssfn_scrollStep]
  rw [if_pos ⟨hj, hy⟩]
  have hcast :
      (((dst.h - (hgt : Int) - Int.tmod dst.h (hgt : Int)).toNat : Nat) : Int) =
        dst.h - (hgt : Int) - Int.tmod dst.h (hgt : Int) :=
    Int.toNat_of_nonneg hj.le
  refine ⟨rfl, fun a => ?_⟩
  dsimp only
  rw [ssfn_scrollGo_spec]
  simp only [Nat.cast_zero, zero_mul, zero_add]
  rw [hcast]
  constructor
  · intro hin
    rw [if_pos hin]
  · intro hout
    rw [if_neg hout]

/-- Claim C3 as stated is false: with destination height 5, cell height 4 and
a newline advancing the cursor to `y = 4 > 5 - 4`, the code computes
`j = 5 - 4 - (5 % 4) = 0` and does not scroll: byte 0 of the buffer keeps its
old value instead of receiving the byte one cell height further down. -/
theorem scroll_claim_counterexample :
    ¬(∀ (f : Font) (dst : SSFNDst),
        fbyte f 0 = 83 → fbyte f 1 = 70 → fbyte f 2 = 78 → fbyte f 3 = 50 →
        dst.ptrNull = false → dst.p ≠ 0 → dst.h ≠ 0 →
        dst.h - (fontHeight f : Int) < dst.y + (fontHeight f : Int) →
        (ssfn_putc (some f) dst 10).dst.mem 0 =
          dst.mem (0 + (fontHeight f : Int) * (dst.p : Int))) := by
  intro h
  have h1 := h fontB dstB (by decide) (by decide) (by decide) (by decide) rfl
    (by decide) (by decide) (by decide)
  have h2 : (ssfn_putc (some fontB) dstB 10).dst.mem 0 = 0 := by decide
  have h3 : dstB.mem (0 + (fontHeight fontB : Int) * ((dstB.p : Nat) : Int)) = 8 := by decide
  rw [h2, h3] at h1
  exact absurd h1 (by decide)

/-- Witness for `scroll_on_overflow`: cell height 2, destination height 6,
pitch 2, cursor `y = 5 > j = 4`; after the step `y = 4`, byte 0 holds the
former byte 4 (value 104), and byte 8 (outside the shifted region) is
untouched. -/
theorem scroll_on_overflow_witness :
    (0 : Int) < dstC.h - (2 : Nat) - Int.tmod dstC.h (2 : Nat) ∧
      (ssfn_scrollStep 2 dstC).y = dstC.h - (2 : Nat) - Int.tmod dstC.h (2 : Nat) ∧
      (ssfn_scrollStep 2 dstC).mem 0 = dstC.mem (0 + ((2 : Nat) : Int) * (dstC.p : Int)) ∧
      (ssfn_scrollStep 2 dstC).mem 8 = dstC.mem 8 := by
  have h := scroll_on_overflow 2 dstC (by decide) (by decide)
  exact ⟨by decide, h.1, (h.2 0).1 (by decide), (h.2 8).2 (by decide)⟩

/-- Claim C5 (amended): on a table byte whose top two bits are `11` (and
which is not `0xFF`), one scan iteration advances the table pointer by
exactly 2 bytes and the code point counter by
`(((b0 & 0x3F) << 8) | b1) + 1` — the explicit skip plus the loop's own
`i++`, which runs on every iteration. -/
theorem scan_skip2_step (f : Font) (u fuel po i : Nat) (hi : i < 0x110000)
    (hff : fbyte f po ≠ 0xFF) (hcc : fbyte f po &&& 0xC0 = 0xC0) :
    scanF f u (fuel + 1) po i =
      scanF f u fuel (po + 2)
        (i + (((fbyte f po &&& 0x3F) <<< 8) ||| fbyte f (po + 1)) + 1) := by
  simp only [scanF]
  rw [if_pos hi, if_neg hff, if_pos hcc]

/-- Claim C5 as stated is false: on the table `C0 00 | record | record ...`,
a skip count of 0 still consumes one code point (the loop's `i++`), so the
record following the marker belongs to code point 1, not code point 0; the
scan for code point 1 finds the record at offset 2, while the claimed
counter update would find the one at offset 8. -/
theorem scan_skip2_claim_counterexample :
    ¬(∀ (f : Font) (u fuel po i : Nat), i < 0x110000 → fbyte f po ≠ 0xFF →
        fbyte f po &&& 0xC0 = 0xC0 →
        scanF f u (fuel + 1) po i =
          scanF f u fuel (po + 2)
            (i + (((fbyte f po &&& 0x3F) <<< 8) ||| fbyte f (po + 1)))) := by
  intro h
  have h1 := h fontC5 1 10 0 0 (by decide) (by decide) (by decide)
  have h2 : scanF fontC5 1 11 0 0 = some 2 := by decide
  have h3 : scanF fontC5 1 10 2
      (0 + (((fbyte fontC5 0 &&& 0x3F) <<< 8) ||| fbyte fontC5 1)) = some 8 := by decide
  rw [h2, h3] at h1
  exact absurd h1 (by decide)

/-- Witness for `scan_skip2_step`: on `fontS` (marker `C1 05`, skip count
261) one step goes from `(po, i) = (0, 0)` to `(2, 262)`. -/
theorem scan_skip2_step_witness :
    (0 : Nat) < 0x110000 ∧ fbyte fontS 0 ≠ 0xFF ∧ fbyte fontS 0 &&& 0xC0 = 0xC0 ∧
      scanF fontS 262 11 0 0 =
        scanF fontS 262 10 2 (0 + (((fbyte fontS 0 &&& 0x3F) <<< 8) ||| fbyte fontS 1) + 1) :=
  ⟨by decide, by decide, by decide,
    scan_skip2_step fontS 262 10 0 0 (by decide) (by decide) (by decide)⟩

/-- Claim C2 (amended): for a code point with no character-table entry,
provided it is neither newline (10) nor carriage return (13) and the current
cursor does not already satisfy the scroll condition
(`j > 0 ∧ y > j` with `j = h - cellHeight - h % cellHeight`), `ssfn_putc`
returns `SSFN_ERR_NOGLYPH` and leaves the destination buffer and cursor
exactly as they were. -/
theorem putc_missing_glyph (f : Font) (dst : SSFNDst) (u : Nat)
    (hm0 : fbyte f 0 = 83) (hm1 : fbyte f 1 = 70) (hm2 : fbyte f 2 = 78) (hm3 : fbyte f 3 = 50)
    (hpn : dst.ptrNull = false) (hp : dst.p ≠ 0)
    (hscan : scanF f u 0x110000 (charactersOffs f) 0 = none)
    (h10 : u ≠ 10) (h13 : u ≠ 13)
    (hns : ¬(0 < dst.h - (fontHeight f : Int) - Int.tmod dst.h (fontHeight f : Int) ∧
        dst.h - (fontHeight f : Int) - Int.tmod dst.h (fontHeight f : Int) < dst.y)) :
    (ssfn_putc (some f) dst u).ret = SSFN_ERR_NOGLYPH ∧
      (ssfn_putc (some f) dst u).dst = dst := by
  have hbad : ¬(fbyte f 0 ≠ 83 ∨ fbyte f 1 ≠ 70 ∨ fbyte f 2 ≠ 78 ∨ fbyte f 3 ≠ 50 ∨
      dst.ptrNull = true ∨ dst.p = 0) := by
    simp [hm0, hm1, hm2, hm3, hpn, hp]
  simp only [ssfn_putc]
  rw [if_neg hbad, hscan]
  simp only [ssfn_ctrl1]
  rw [if_neg h10]
  simp only [ssfn_scrollStep]
  rw [if_neg hns]
  rw [if_neg (not_or.mpr ⟨h13, h10⟩)]
  exact ⟨rfl, rfl⟩

/-- Claim C2 as stated is false: code point 10 (`'\n'`) is absent from
`fontA`'s table, yet `ssfn_putc` returns `SSFN_OK` (not the glyph-not-found
status) and moves the cursor. -/
theorem missing_glyph_claim_counterexample :
    ¬(∀ (f : Font) (dst : SSFNDst) (u : Nat),
        fbyte f 0 = 83 → fbyte f 1 = 70 → fbyte f 2 = 78 → fbyte f 3 = 50 →
        dst.ptrNull = false → dst.p ≠ 0 →
        scanF f u 0x110000 (charactersOffs f) 0 = none →
        (ssfn_putc (some f) dst u).ret = SSFN_ERR_NOGLYPH ∧
          (ssfn_putc (some f) dst u).dst.x = dst.x ∧
          (ssfn_putc (some f) dst u).dst.y = dst.y ∧
          ∀ a, (ssfn_putc (some f) dst u).dst.mem a = dst.mem a) := by
  intro h
  have h1 := (h fontA dstA 10 (by decide) (by decide) (by decide) (by decide) rfl
    (by decide) (by decide)).1
  have h2 : (ssfn_putc (some fontA) dstA 10).ret = 0 := by decide
  rw [h2] at h1
  exact absurd h1 (by decide)

/-- Witness for `putc_missing_glyph`: code point 65 is absent from `fontA`'s
table and the call is a no-op returning the glyph-not-found status. -/
theorem putc_missing_glyph_witness :
    scanF fontA 65 0x110000 (charactersOffs fontA) 0 = none ∧
      (ssfn_putc (some fontA) dstA 65).ret = SSFN_ERR_NOGLYPH ∧
      (ssfn_putc (some fontA) dstA 65).dst = dstA := by
  have h := putc_missing_glyph fontA dstA 65 (by decide) (by decide) (by decide) (by decide)
    rfl (by decide) (by decide) (by decide) (by decide) (by decide)
  exact ⟨by decide, h.1, h.2⟩

theorem bgRowGo_mono (dst : SSFNDst) (w : Int) :
    ∀ (rem j : Nat) (pB : Int) (mem : Int → Nat) (log : List PixelWrite) (e : PixelWrite),
      e ∈ log → e ∈ (bgRowGo dst w rem j pB mem log).2 := by
  intro rem
  induction rem with
  | zero => intro j pB mem log e he; exact he
  | succ rem ih =>
    intro j pB mem log e he
    simp only [bgRowGo]
    by_cases hg : w = 0 ∨ dst.x + (j : Int) < w
    · rw [if_pos hg]
      exact ih _ _ _ _ _ (List.mem_cons_of_mem _ he)
    · rw [if_neg hg]
      exact he

/-- Every entry the background-fill row appends satisfies any property `P`
that holds of background stores at columns passing the horizontal clip. -/
theorem bgRowGo_logP (dst : SSFNDst) (w : Int) (P : PixelWrite → Prop)
    (hP : ∀ (pB col : Int), (w = 0 ∨ col < w) → P ⟨pB, col, false, dst.bg⟩) :
    ∀ (rem j : Nat) (pB : Int) (mem : Int → Nat) (log : List PixelWrite),
      (∀ e ∈ log, P e) → ∀ e ∈ (bgRowGo dst w rem j pB mem log).2, P e := by
  intro rem
  induction rem with
  | zero => intro j pB mem log hlog; exact hlog
  | succ rem ih =>
    intro j pB mem log hlog
    simp only [bgRowGo]
    by_cases hg : w = 0 ∨ dst.x + (j : Int) < w
    · rw [if_pos hg]
      exact ih _ _ _ _ (List.forall_mem_cons.mpr ⟨hP pB (dst.x + (j : Int)) hg, hlog⟩)
    · rw [if_neg hg]
      exact hlog

/-- Any address the background-fill row changes has a log entry. -/
theorem bgRowGo_frame (dst : SSFNDst) (w : Int) :
    ∀ (rem j : Nat) (pB : Int) (mem : Int → Nat) (log : List PixelWrite) (a : Int),
      (bgRowGo dst w rem j pB mem log).1 a ≠ mem a →
      ∃ e ∈ (bgRowGo dst w rem j pB mem log).2, e.addr = a := by
  intro rem
  induction rem with
  | zero => intro j pB mem log a hne; exact absurd rfl hne
  | succ rem ih =>
    intro j pB mem log a hne
    simp only [bgRowGo] at hne ⊢
    by_cases hg : w = 0 ∨ dst.x + (j : Int) < w
    · rw [if_pos hg] at hne ⊢
      by_cases hrec : (bgRowGo dst w rem (j + 1) (pB + 4) (store mem pB dst.bg)
          ((⟨pB, dst.x + (j : Int), false, dst.bg⟩ : PixelWrite) :: log)).1 a =
            store mem pB dst.bg a
      · have hsa : store mem pB dst.bg a ≠ mem a := fun hc => hne (hrec.trans hc)
        have ha : a = pB := by
          by_contra hc
          exact hsa (store_other mem pB a dst.bg hc)
        exact ⟨⟨pB, dst.x + (j : Int), false, dst.bg⟩,
          bgRowGo_mono dst w _ _ _ _ _ _ (List.mem_cons_self _ _), ha.symm⟩
      · exact ih _ _ _ _ a hrec
    · rw [if_neg hg] at hne ⊢
      exact absurd rfl hne

theorem bgRows_mono (dst : SSFNDst) (w : Int) (cellW s : Nat) :
    ∀ (fuel : Nat) (st : BlitSt) (e : PixelWrite),
      e ∈ st.log → e ∈ (bgRows dst w cellW s fuel st).log := by
  intro fuel
  induction fuel with
  | zero => intro st e he; exact he
  | succ fuel ih =>
    intro st e he
    simp only [bgRows]
    by_cases hc : dst.h = 0 ∨ dst.y + st.y < dst.h
    · rw [if_pos hc]
      exact ih _ _ (bgRowGo_mono dst w _ _ _ _ _ _ he)
    · rw [if_neg hc]
      exact he

theorem bgRows_logP (dst : SSFNDst) (w : Int) (cellW s : Nat) (P : PixelWrite → Prop)
    (hP : ∀ (pB col : Int), (w = 0 ∨ col < w) → P ⟨pB, col, false, dst.bg⟩) :
    ∀ (fuel : Nat) (st : BlitSt),
      (∀ e ∈ st.log, P e) → ∀ e ∈ (bgRows dst w cellW s fuel st).log, P e := by
  intro fuel
  induction fuel with
  | zero => intro st hst; exact hst
  | succ fuel ih =>
    intro st hst
    simp only [bgRows]
    by_cases hc : dst.h = 0 ∨ dst.y + st.y < dst.h
    · rw [if_pos hc]
      exact ih _ (bgRowGo_logP dst w P hP _ _ _ _ _ hst)
    · rw [if_neg hc]
      exact hst

theorem bgRows_frame (dst : SSFNDst) (w : Int) (cellW s : Nat) :
    ∀ (fuel : Nat) (st : BlitSt) (a : Int),
      (bgRows dst w cellW s fuel st).mem a ≠ st.mem a →
      ∃ e ∈ (bgRows dst w cellW s fuel st).log, e.addr = a := by
  intro fuel
  induction fuel with
  | zero => intro st a hne; exact absurd rfl hne
  | succ fuel ih =>
    intro st a hne
    simp only [bgRows] at hne ⊢
    by_cases hc : dst.h = 0 ∨ dst.y + st.y < dst.h
    · rw [if_pos hc] at hne ⊢
      by_cases hrec :
          (bgRows dst w cellW s fuel
              ⟨st.y + 1, st.o + 4 * (s : Int), (bgRowGo dst w cellW 0 st.o st.mem st.log).1,
                (bgRowGo dst w cellW 0 st.o st.mem st.log).2⟩).mem a =
            (bgRowGo dst w cellW 0 st.o st.mem st.log).1 a
      · have hrow : (bgRowGo dst w cellW 0 st.o st.mem st.log).1 a ≠ st.mem a :=
          fun hc2 => hne (hrec.trans hc2)
        obtain ⟨e, hel, hea⟩ := bgRowGo_frame dst w cellW 0 st.o st.mem st.log a hrow
        exact ⟨e, bgRows_mono dst w cellW s fuel _ e hel, hea⟩
      · exact ih _ a hrec
    · rw [if_neg hc] at hne ⊢
      exact absurd rfl hne

theorem bitRowGo_mono (f : Font) (dst : SSFNDst) (w : Int) :
    ∀ (rem l : Nat) (pB : Int) (m frg : Nat) (mem : Int → Nat) (log : List PixelWrite)
      (e : PixelWrite), e ∈ log → e ∈ (bitRowGo f dst w rem l pB m frg mem log).2.2.2 := by
  intro rem
  induction rem with
  | zero => intro l pB m frg mem log e he; exact he
  | succ rem ih =>
    intro l pB m frg mem log e he
    simp only [bitRowGo]
    by_cases hg : 0 ≤ dst.x + (l : Int) ∧ (w = 0 ∨ dst.x + (l : Int) < w)
    · rw [if_pos hg]
      by_cases hb : fbyte f (if 0x80 < m then frg + 1 else frg) &&&
          (if 0x80 < m then 1 else m) ≠ 0
      · rw [if_pos hb]
        exact ih _ _ _ _ _ _ _ (List.mem_cons_of_mem _ he)
      · rw [if_neg hb]
        by_cases hz : dst.bg ≠ 0
        · rw [if_pos hz]
          exact ih _ _ _ _ _ _ _ (List.mem_cons_of_mem _ he)
        · rw [if_neg hz]
          exact ih _ _ _ _ _ _ _ he
    · rw [if_neg hg]
      exact ih _ _ _ _ _ _ _ he

/-- Every entry the bitmap row loop appends satisfies any property `P` that
holds of foreground stores at non-negative columns passing the horizontal
clip and of background stores (possible only with non-transparent
background) at such columns. -/
theorem bitRowGo_logP (f : Font) (dst : SSFNDst) (w : Int) (P : PixelWrite → Prop)
    (hPf : ∀ (pB col : Int), 0 ≤ col → (w = 0 ∨ col < w) → P ⟨pB, col, true, dst.fg⟩)
    (hPb : ∀ (pB col : Int), (w = 0 ∨ col < w) → dst.bg ≠ 0 → P ⟨pB, col, false, dst.bg⟩) :
    ∀ (rem l : Nat) (pB : Int) (m frg : Nat) (mem : Int → Nat) (log : List PixelWrite),
      (∀ e ∈ log, P e) → ∀ e ∈ (bitRowGo f dst w rem l pB m frg mem log).2.2.2, P e := by
  intro rem
  induction rem with
  | zero => intro l pB m frg mem log hlog; exact hlog
  | succ rem ih =>
    intro l pB m frg mem log hlog
    simp only [bitRowGo]
    by_cases hg : 0 ≤ dst.x + (l : Int) ∧ (w = 0 ∨ dst.x + (l : Int) < w)
    · rw [if_pos hg]
      by_cases hb : fbyte f (if 0x80 < m then frg + 1 else frg) &&&
          (if 0x80 < m then 1 else m) ≠ 0
      · rw [if_pos hb]
        exact ih _ _ _ _ _ _
          (List.forall_mem_cons.mpr ⟨hPf pB (dst.x + (l : Int)) hg.1 hg.2, hlog⟩)
      · rw [if_neg hb]
        by_cases hz : dst.bg ≠ 0
        · rw [if_pos hz]
          exact ih _ _ _ _ _ _
            (List.forall_mem_cons.mpr ⟨hPb pB (dst.x + (l : Int)) hg.2 hz, hlog⟩)
        · rw [if_neg hz]
          exact ih _ _ _ _ _ _ hlog
    · rw [if_neg hg]
      exact ih _ _ _ _ _ _ hlog

/-- Any address the bitmap row loop changes has a log entry. -/
theorem bitRowGo_frame (f : Font) (dst : SSFNDst) (w : Int) :
    ∀ (rem l : Nat) (pB : Int) (m frg : Nat) (mem : Int → Nat) (log : List PixelWrite) (a : Int),
      (bitRowGo f dst w rem l pB m frg mem log).2.2.1 a ≠ mem a →
      ∃ e ∈ (bitRowGo f dst w rem l pB m frg mem log).2.2.2, e.addr = a := by
  intro rem
  induction rem with
  | zero => intro l pB m frg mem log a hne; exact absurd rfl hne
  | succ rem ih =>
    intro l pB m frg mem log a hne
    simp only [bitRowGo] at hne ⊢
    by_cases hg : 0 ≤ dst.x + (l : Int) ∧ (w = 0 ∨ dst.x + (l : Int) < w)
    · rw [if_pos hg] at hne ⊢
      by_cases hb : fbyte f (if 0x80 < m then frg + 1 else frg) &&&
          (if 0x80 < m then 1 else m) ≠ 0
      · rw [if_pos hb] at hne ⊢
        by_cases hrec :
            (bitRowGo f dst w rem (l + 1) (pB + 4) (2 * if 0x80 < m then 1 else m)
                (if 0x80 < m then frg + 1 else frg) (store mem pB dst.fg)
                ((⟨pB, dst.x + (l : Int), true, dst.fg⟩ : PixelWrite) :: log)).2.2.1 a =
              store mem pB dst.fg a
        · have hsa : store mem pB dst.fg a ≠ mem a := fun hc => hne (hrec.trans hc)
          have ha : a = pB := by
            by_contra hc
            exact hsa (store_other mem pB a dst.fg hc)
          exact ⟨⟨pB, dst.x + (l : Int), true, dst.fg⟩,
            bitRowGo_mono f dst w _ _ _ _ _ _ _ _ (List.mem_cons_self _ _), ha.symm⟩
        · exact ih _ _ _ _ _ _ a hrec
      · rw [if_neg hb] at hne ⊢
        by_cases hz : dst.bg ≠ 0
        · rw [if_pos hz] at hne ⊢
          by_cases hrec :
              (bitRowGo f dst w rem (l + 1) (pB + 4) (2 * if 0x80 < m then 1 else m)
                  (if 0x80 < m then frg + 1 else frg) (store mem pB dst.bg)
                  ((⟨pB, dst.x + (l : Int), false, dst.bg⟩ : PixelWrite) :: log)).2.2.1 a =
                store mem pB dst.bg a
          · have hsa : store mem pB dst.bg a ≠ mem a := fun hc => hne (hrec.trans hc)
            have ha : a = pB := by
              by_contra hc
              exact hsa (store_other mem pB a dst.bg hc)
            exact ⟨⟨pB, dst.x + (l : Int), false, dst.bg⟩,
              bitRowGo_mono f dst w _ _ _ _ _ _ _ _ (List.mem_cons_self _ _), ha.symm⟩
          · exact ih _ _ _ _ _ _ a hrec
        · rw [if_neg hz] at hne ⊢
          exact ih _ _ _ _ _ _ a hne
    · rw [if_neg hg] at hne ⊢
      exact ih _ _ _ _ _ _ a hne

theorem bitRows_mono (f : Font) (dst : SSFNDst) (w : Int) (k s : Nat) :
    ∀ (jc : Nat) (y o : Int) (m frg : Nat) (mem : Int → Nat) (log : List PixelWrite)
      (e : PixelWrite), e ∈ log → e ∈ (bitRows f dst w k s jc y o m frg mem log).log := by
  intro jc
  induction jc with
  | zero => intro y o m frg mem log e he; exact he
  | succ jc ih =>
    intro y o m frg mem log e he
    simp only [bitRows]
    by_cases hc : dst.h = 0 ∨ dst.y + y < dst.h
    · rw [if_pos hc]
      exact ih _ _ _ _ _ _ _ (bitRowGo_mono f dst w _ _ _ _ _ _ _ _ he)
    · rw [if_neg hc]
      exact he

theorem bitRows_logP (f : Font) (dst : SSFNDst) (w : Int) (k s : Nat) (P : PixelWrite → Prop)
    (hPf : ∀ (pB col : Int), 0 ≤ col → (w = 0 ∨ col < w) → P ⟨pB, col, true, dst.fg⟩)
    (hPb : ∀ (pB col : Int), (w = 0 ∨ col < w) → dst.bg ≠ 0 → P ⟨pB, col, false, dst.bg⟩) :
    ∀ (jc : Nat) (y o : Int) (m frg : Nat) (mem : Int → Nat) (log : List PixelWrite),
      (∀ e ∈ log, P e) → ∀ e ∈ (bitRows f dst w k s jc y o m frg mem log).log, P e := by
  intro jc
  induction jc with
  | zero => intro y o m frg mem log hlog; exact hlog
  | succ jc ih =>
    intro y o m frg mem log hlog
    simp only [bitRows]
    by_cases hc : dst.h = 0 ∨ dst.y + y < dst.h
    · rw [if_pos hc]
      exact ih _ _ _ _ _ _ (bitRowGo_logP f dst w P hPf hPb _ _ _ _ _ _ _ hlog)
    · rw [if_neg hc]
      exact hlog

theorem bitRows_frame (f : Font) (dst : SSFNDst) (w : Int) (k s : Nat) :
    ∀ (jc : Nat) (y o : Int) (m frg : Nat) (mem : Int → Nat) (log : List PixelWrite) (a : Int),
      (bitRows f dst w k s jc y o m frg mem log).mem a ≠ mem a →
      ∃ e ∈ (bitRows f dst w k s jc y o m frg mem log).log, e.addr = a := by
  intro jc
  induction jc with
  | zero => intro y o m frg mem log a hne; exact absurd rfl hne
  | succ jc ih =>
    intro y o m frg mem log a hne
    simp only [bitRows] at hne ⊢
    by_cases hc : dst.h = 0 ∨ dst.y + y < dst.h
    · rw [if_pos hc] at hne ⊢
      by_cases hrec :
          (bitRows f dst w k s jc (y + 1) (o + 4 * (s : Int))
              (bitRowGo f dst w k 0 o m frg mem log).1
              (bitRowGo f dst w k 0 o m frg mem log).2.1
              (bitRowGo f dst w k 0 o m frg mem log).2.2.1
              (bitRowGo f dst w k 0 o m frg mem log).2.2.2).mem a =
            (bitRowGo f dst w k 0 o m frg mem log).2.2.1 a
      · have hrow : (bitRowGo f dst w k 0 o m frg mem log).2.2.1 a ≠ mem a :=
          fun hc2 => hne (hrec.trans hc2)
        obtain ⟨e, hel, hea⟩ := bitRowGo_frame f dst w k 0 o m frg mem log a hrow
        exact ⟨e, bitRows_mono f dst w k s jc _ _ _ _ _ _ e hel, hea⟩
      · exact ih _ _ _ _ _ _ a hrec
    · rw [if_neg hc] at hne ⊢
      exact absurd rfl hne

theorem fragStep_mono (f : Font) (dst : SSFNDst) (w : Int) (chrOff s ptrOff : Nat)
    (st : BlitSt) (e : PixelWrite) (he : e ∈ st.log) :
    e ∈ (fragStep f dst w chrOff s ptrOff st).log := by
  simp only [fragStep]
  by_cases h1 : fbyte f ptrOff = 255 ∧ fbyte f (ptrOff + 1) = 255
  · rw [if_pos h1]; exact he
  rw [if_neg h1]
  by_cases h2 : fbyte f (fragOffset f chrOff ptrOff) &&& 0xE0 ≠ 0x80
  · rw [if_pos h2]; exact he
  rw [if_neg h2]
  by_cases h3 : dst.bg ≠ 0
  · rw [if_pos h3]
    exact bitRows_mono f dst w _ s _ _ _ _ _ _ _ e (bgRows_mono dst w _ s _ st e he)
  · rw [if_neg h3]
    exact bitRows_mono f dst w _ s _ _ _ _ _ _ _ e he

theorem fragStep_logP (f : Font) (dst : SSFNDst) (w : Int) (chrOff s ptrOff : Nat)
    (P : PixelWrite → Prop)
    (hPf : ∀ (pB col : Int), 0 ≤ col → (w = 0 ∨ col < w) → P ⟨pB, col, true, dst.fg⟩)
    (hPb : ∀ (pB col : Int), (w = 0 ∨ col < w) → dst.bg ≠ 0 → P ⟨pB, col, false, dst.bg⟩)
    (st : BlitSt) (hst : ∀ e ∈ st.log, P e) :
    ∀ e ∈ (fragStep f dst w chrOff s ptrOff st).log, P e := by
  simp only [fragStep]
  by_cases h1 : fbyte f ptrOff = 255 ∧ fbyte f (ptrOff + 1) = 255
  · rw [if_pos h1]; exact hst
  rw [if_neg h1]
  by_cases h2 : fbyte f (fragOffset f chrOff ptrOff) &&& 0xE0 ≠ 0x80
  · rw [if_pos h2]; exact hst
  rw [if_neg h2]
  by_cases h3 : dst.bg ≠ 0
  · rw [if_pos h3]
    exact bitRows_logP f dst w _ s P hPf hPb _ _ _ _ _ _ _
      (bgRows_logP dst w _ s P (fun pB col hcol => hPb pB col hcol h3) _ st hst)
  · rw [if_neg h3]
    exact bitRows_logP f dst w _ s P hPf hPb _ _ _ _ _ _ _ hst

theorem fragStep_frame (f : Font) (dst : SSFNDst) (w : Int) (chrOff s ptrOff : Nat)
    (st : BlitSt) (a : Int) (hne : (fragStep f dst w chrOff s ptrOff st).mem a ≠ st.mem a) :
    ∃ e ∈ (fragStep f dst w chrOff s ptrOff st).log, e.addr = a := by
  simp only [fragStep] at hne ⊢
  by_cases h1 : fbyte f ptrOff = 255 ∧ fbyte f (ptrOff + 1) = 255
  · rw [if_pos h1] at hne; exact absurd rfl hne
  rw [if_neg h1] at hne ⊢
  by_cases h2 : fbyte f (fragOffset f chrOff ptrOff) &&& 0xE0 ≠ 0x80
  · rw [if_pos h2] at hne; exact absurd rfl hne
  rw [if_neg h2] at hne ⊢
  by_cases h3 : dst.bg ≠ 0
  · rw [if_pos h3] at hne ⊢
    by_cases hmid :
        (bgRows dst w (fbyte f (chrOff + 2)) s
            (((fbyte f (ptrOff + 1) : Int) - st.y).toNat) st).mem a = st.mem a
    · have hbit : _ ≠ _ := fun hc => hne (hc.trans hmid)
      obtain ⟨e, hel, hea⟩ := bitRows_frame f dst w _ s _ _ _ _ _ _ _ a hbit
      exact ⟨e, hel, hea⟩
    · obtain ⟨e, hel, hea⟩ := bgRows_frame dst w _ s _ st a hmid
      exact ⟨e, bitRows_mono f dst w _ s _ _ _ _ _ _ _ e hel, hea⟩
  · rw [if_neg h3] at hne ⊢
    obtain ⟨e, hel, hea⟩ := bitRows_frame f dst w _ s _ _ _ _ _ _ _ a hne
    exact ⟨e, hel, hea⟩

theorem fragLoopGo_mono (f : Font) (dst : SSFNDst) (w : Int) (chrOff s step : Nat) :
    ∀ (rem ptrOff : Nat) (st : BlitSt) (e : PixelWrite), e ∈ st.log →
      e ∈ (fragLoopGo f dst w chrOff s step rem ptrOff st).log := by
  intro rem
  induction rem with
  | zero => intro ptrOff st e he; exact he
  | succ rem ih =>
    intro ptrOff st e he
    simp only [fragLoopGo]
    exact ih _ _ e (fragStep_mono f dst w chrOff s ptrOff st e he)

theorem fragLoopGo_logP (f : Font) (dst : SSFNDst) (w : Int) (chrOff s step : Nat)
    (P : PixelWrite → Prop)
    (hPf : ∀ (pB col : Int), 0 ≤ col → (w = 0 ∨ col < w) → P ⟨pB, col, true, dst.fg⟩)
    (hPb : ∀ (pB col : Int), (w = 0 ∨ col < w) → dst.bg ≠ 0 → P ⟨pB, col, false, dst.bg⟩) :
    ∀ (rem ptrOff : Nat) (st : BlitSt), (∀ e ∈ st.log, P e) →
      ∀ e ∈ (fragLoopGo f dst w chrOff s step rem ptrOff st).log, P e := by
  intro rem
  induction rem with
  | zero => intro ptrOff st hst; exact hst
  | succ rem ih =>
    intro ptrOff st hst
    simp only [fragLoopGo]
    exact ih _ _ (fragStep_logP f dst w chrOff s ptrOff P hPf hPb st hst)

theorem fragLoopGo_frame (f : Font) (dst : SSFNDst) (w : Int) (chrOff s step : Nat) :
    ∀ (rem ptrOff : Nat) (st : BlitSt) (a : Int),
      (fragLoopGo f dst w chrOff s step rem ptrOff st).mem a ≠ st.mem a →
      ∃ e ∈ (fragLoopGo f dst w chrOff s step rem ptrOff st).log, e.addr = a := by
  intro rem
  induction rem with
  | zero => intro ptrOff st a hne; exact absurd rfl hne
  | succ rem ih =>
    intro ptrOff st a hne
    simp only [fragLoopGo] at hne ⊢
    by_cases hmid : (fragStep f dst w chrOff s ptrOff st).mem a = st.mem a
    · exact ih _ _ a (fun hc => hne (hc.trans hmid))
    · obtain ⟨e, hel, hea⟩ := fragStep_frame f dst w chrOff s ptrOff st a hmid
      exact ⟨e, fragLoopGo_mono f dst w chrOff s step rem _ _ e hel, hea⟩

/-- Claim C4 (amended): every pixel store of the glyph-drawing phase is at a
column strictly below the destination width when that width is nonzero.  (The
glyph's declared cell width `chr[2]` bounds only the background-fill rows;
the bitmap rows run to the fragment's own row width `((frg[0] & 0x1F)+1)*8`,
which may exceed `chr[2]` — see the counterexample.) -/
theorem render_writes_below_width (f : Font) (dst : SSFNDst) (w : Int) (chrOff : Nat) :
    ∀ e ∈ (ssfn_render f dst w chrOff).log, w ≠ 0 → e.col < w := by
  intro e he
  simp only [ssfn_render] at he
  have base :
      ∀ e' ∈ (fragLoopGo f dst w chrOff (dst.p / 4)
          (if fbyte f chrOff &&& 0x40 ≠ 0 then 6 else 5) (fbyte f (chrOff + 1)) (chrOff + 6)
          ⟨0, dst.y * (dst.p : Int) + dst.x * 4, dst.mem, []⟩).log,
        (w ≠ 0 → e'.col < w) := by
    apply fragLoopGo_logP f dst w chrOff _ _ (fun e' => w ≠ 0 → e'.col < w)
      (fun pB col h0 hcol hw => hcol.resolve_left hw)
      (fun pB col hcol hz hw => hcol.resolve_left hw)
    intro e' he'
    exact absurd he' (List.not_mem_nil e')
  by_cases hbg : dst.bg ≠ 0
  · rw [if_pos hbg] at he
    exact bgRows_logP dst w _ _ (fun e' => w ≠ 0 → e'.col < w)
      (fun pB col hcol hw => hcol.resolve_left hw) _ _ base e he
  · rw [if_neg hbg] at he
    exact base e he

/-- Claim C9: with a transparent background (`bg = 0`), every byte of pixel
memory the glyph-drawing phase changes was stored by a set foreground bit of
one of the glyph's bitmap fragments; every other destination pixel keeps its
prior value. -/
theorem render_transparent_no_bleed (f : Font) (dst : SSFNDst) (w : Int) (chrOff : Nat)
    (hbg : dst.bg = 0) (a : Int)
    (hne : (ssfn_render f dst w chrOff).dst.mem a ≠ dst.mem a) :
    ∃ e ∈ (ssfn_render f dst w chrOff).log, e.addr = a ∧ e.fgBit = true := by
  have hbg' : ¬dst.bg ≠ 0 := by simp [hbg]
  simp only [ssfn_render] at hne ⊢
  rw [if_neg hbg'] at hne ⊢
  obtain ⟨e, hel, hea⟩ := fragLoopGo_frame f dst w chrOff _ _ _ _ _ a hne
  refine ⟨e, hel, hea, ?_⟩
  exact fragLoopGo_logP f dst w chrOff _ _ (fun e' => e'.fgBit = true)
    (fun pB col h0 hcol => rfl)
    (fun pB col hcol hz => absurd hz hbg')
    _ _ _ (fun e' he' => absurd he' (List.not_mem_nil e')) e hel

theorem maskRep_norm (frg0 E m frg : Nat) (h : maskRep frg0 E m frg) :
    (if 0x80 < m then 1 else m) = 1 <<< (E % 8) ∧
      (if 0x80 < m then frg + 1 else frg) = frg0 + E / 8 := by
  rcases h with ⟨hm, hf⟩ | ⟨hE, hE8, hm, hf⟩
  · have hpow : 1 <<< (E % 8) = 2 ^ (E % 8) := by rw [Nat.shiftLeft_eq, one_mul]
    have hle : m ≤ 0x80 := by
      rw [hm, hpow]
      calc 2 ^ (E % 8) ≤ 2 ^ 7 := Nat.pow_le_pow_right (by norm_num) (by omega)
        _ = 0x80 := by norm_num
    rw [if_neg (by omega), if_neg (by omega)]
    exact ⟨hm, hf⟩
  · rw [hm, hf]
    rw [if_pos (by norm_num), if_pos (by norm_num)]
    constructor
    · rw [hE8]
      decide
    · omega

theorem maskRep_step (frg0 E : Nat) :
    maskRep frg0 (E + 1) (2 * (1 <<< (E % 8))) (frg0 + E / 8) := by
  by_cases h7 : E % 8 = 7
  · right
    refine ⟨Nat.succ_pos E, by omega, ?_, by omega⟩
    rw [h7]
    decide
  · left
    constructor
    · have h8 : (E + 1) % 8 = E % 8 + 1 := by omega
      rw [h8, Nat.shiftLeft_eq, Nat.shiftLeft_eq, one_mul, one_mul, pow_succ]
      ring
    · omega

/-- The bitmap row loop leaves every address outside its write window
`{pB, pB + 4, ..., pB + 4*(rem-1)}` untouched. -/
theorem bitRowGo_memframe (f : Font) (dst : SSFNDst) (w : Int) :
    ∀ (rem l : Nat) (pB : Int) (m frg : Nat) (mem : Int → Nat) (log : List PixelWrite) (a : Int),
      (∀ t : Nat, t < rem → a ≠ pB + 4 * (t : Int)) →
      (bitRowGo f dst w rem l pB m frg mem log).2.2.1 a = mem a := by
  intro rem
  induction rem with
  | zero => intro l pB m frg mem log a ha; rfl
  | succ rem ih =>
    intro l pB m frg mem log a ha
    have ha0 : a ≠ pB := by
      have h0 := ha 0 (Nat.succ_pos rem)
      simpa using h0
    have ha' : ∀ t : Nat, t < rem → a ≠ (pB + 4) + 4 * (t : Int) := by
      intro t ht
      have h1 := ha (t + 1) (by omega)
      push_cast at h1
      intro hc
      apply h1
      rw [hc]; ring
    simp only [bitRowGo]
    by_cases hg : 0 ≤ dst.x + (l : Int) ∧ (w = 0 ∨ dst.x + (l : Int) < w)
    · rw [if_pos hg]
      by_cases hb : fbyte f (if 0x80 < m then frg + 1 else frg) &&&
          (if 0x80 < m then 1 else m) ≠ 0
      · rw [if_pos hb, ih _ _ _ _ _ _ a ha']
        exact store_other mem pB a dst.fg ha0
      · rw [if_neg hb]
        by_cases hz : dst.bg ≠ 0
        · rw [if_pos hz, ih _ _ _ _ _ _ a ha']
          exact store_other mem pB a dst.bg ha0
        · rw [if_neg hz]
          exact ih _ _ _ _ _ _ a ha'
    · rw [if_neg hg]
      exact ih _ _ _ _ _ _ a ha'

/-- Pointwise characterisation of the bitmap row loop: pixel `t` of the
remaining window is painted from absolute payload bit `E + t` (byte
`(E+t)/8`, bit `(E+t)%8` — least significant bit first), with the
foreground color on a set bit, the background color on a clear bit when the
background is opaque, and left untouched on a clear bit when the background
is transparent; columns failing the horizontal clip are untouched. -/
theorem bitRowGo_pixel (f : Font) (dst : SSFNDst) (w : Int) (frg0 : Nat) :
    ∀ (rem l : Nat) (pB : Int) (m frg : Nat) (mem : Int → Nat) (log : List PixelWrite)
      (E : Nat), maskRep frg0 E m frg → ∀ t : Nat, t < rem →
      (bitRowGo f dst w rem l pB m frg mem log).2.2.1 (pB + 4 * (t : Int)) =
        if 0 ≤ dst.x + ((l + t : Nat) : Int) ∧ (w = 0 ∨ dst.x + ((l + t : Nat) : Int) < w) then
          (if fbyte f (frg0 + (E + t) / 8) &&& (1 <<< ((E + t) % 8)) ≠ 0 then dst.fg
           else if dst.bg ≠ 0 then dst.bg else mem (pB + 4 * (t : Int)))
        else mem (pB + 4 * (t : Int)) := by
  intro rem
  induction rem with
  | zero => intro l pB m frg mem log E hrep t ht; omega
  | succ rem ih =>
    intro l pB m frg mem log E hrep t ht
    obtain ⟨hm₁, hf₁⟩ := maskRep_norm frg0 E m frg hrep
    simp only [bitRowGo]
    rw [hm₁, hf₁]
    cases t with
    | zero =>
      simp only [Nat.add_zero, Nat.cast_zero, mul_zero, add_zero]
      have hfr : ∀ t : Nat, t < rem → pB ≠ (pB + 4) + 4 * (t : Int) := by
        intro t ht'
        have hnn : (0 : Int) ≤ (t : Int) := Int.natCast_nonneg t
        omega
      by_cases hg : 0 ≤ dst.x + (l : Int) ∧ (w = 0 ∨ dst.x + (l : Int) < w)
      · by_cases hbit : fbyte f (frg0 + E / 8) &&& 1 <<< (E % 8) ≠ 0
        · rw [if_pos hg, if_pos hbit,
            bitRowGo_memframe f dst w rem _ _ _ _ _ _ pB hfr,
            store_self mem pB dst.fg, if_pos hg, if_pos hbit]
        · by_cases hz : dst.bg ≠ 0
          · rw [if_pos hg, if_neg hbit, if_pos hz,
              bitRowGo_memframe f dst w rem _ _ _ _ _ _ pB hfr,
              store_self mem pB dst.bg, if_pos hg, if_neg hbit, if_pos hz]
          · rw [if_pos hg, if_neg hbit, if_neg hz,
              bitRowGo_memframe f dst w rem _ _ _ _ _ _ pB hfr, if_pos hg, if_neg hbit,
              if_neg hz]
      · rw [if_neg hg, bitRowGo_memframe f dst w rem _ _ _ _ _ _ pB hfr, if_neg hg]
    | succ t' =>
      have haddr : pB + 4 * (((t' + 1 : Nat)) : Int) = (pB + 4) + 4 * (t' : Int) := by
        push_cast; ring
      have hrep' : maskRep frg0 (E + 1) (2 * (1 <<< (E % 8))) (frg0 + E / 8) :=
        maskRep_step frg0 E
      have hl : l + 1 + t' = l + (t' + 1) := by omega
      have hE : E + 1 + t' = E + (t' + 1) := by omega
      have ht' : t' < rem := by omega
      have hne : (pB + 4) + 4 * (t' : Int) ≠ pB := by
        have hnn : (0 : Int) ≤ (t' : Int) := Int.natCast_nonneg t'
        omega
      by_cases hg : 0 ≤ dst.x + (l : Int) ∧ (w = 0 ∨ dst.x + (l : Int) < w)
      · rw [if_pos hg]
        by_cases hbit : fbyte f (frg0 + E / 8) &&& 1 <<< (E % 8) ≠ 0
        · rw [if_pos hbit, haddr, ih (l + 1) (pB + 4) _ _ _ _ (E + 1) hrep' t' ht', hl, hE,
            store_other mem pB ((pB + 4) + 4 * (t' : Int)) dst.fg hne, ← haddr]
        · rw [if_neg hbit]
          by_cases hz : dst.bg ≠ 0
          · rw [if_pos hz, haddr, ih (l + 1) (pB + 4) _ _ _ _ (E + 1) hrep' t' ht', hl, hE,
              store_other mem pB ((pB + 4) + 4 * (t' : Int)) dst.bg hne, ← haddr]
          · rw [if_neg hz, haddr, ih (l + 1) (pB + 4) _ _ _ _ (E + 1) hrep' t' ht', hl, hE,
              ← haddr]
      · rw [if_neg hg, haddr, ih (l + 1) (pB + 4) _ _ _ _ (E + 1) hrep' t' ht', hl, hE,
          ← haddr]

/-- Claim C1 (amended): a bitmap fragment row is unpacked LSB-first within
each payload byte — pixel `t` of the row (counted from the left edge) is
driven by bit `t % 8` (the *least* significant bit first) of payload byte
`t / 8`; a set bit stores the foreground color, a clear bit stores the
background color when the background is non-transparent and leaves the
destination pixel untouched when the background is 0. -/
theorem bitmap_unpack_lsb_first (f : Font) (dst : SSFNDst) (w : Int) (k : Nat) (pB : Int)
    (frg0 : Nat) (mem : Int → Nat) (log : List PixelWrite) (t : Nat) (ht : t < k)
    (hx : 0 ≤ dst.x + (t : Int)) (hw : w = 0 ∨ dst.x + (t : Int) < w) :
    (bitRowGo f dst w k 0 pB 1 frg0 mem log).2.2.1 (pB + 4 * (t : Int)) =
      if fbyte f (frg0 + t / 8) &&& (1 <<< (t % 8)) ≠ 0 then dst.fg
      else if dst.bg ≠ 0 then dst.bg else mem (pB + 4 * (t : Int)) := by
  have hrep : maskRep frg0 0 1 frg0 := Or.inl ⟨rfl, by simp⟩
  have h := bitRowGo_pixel f dst w frg0 k 0 pB 1 frg0 mem log 0 hrep t ht
  rw [h]
  simp only [Nat.zero_add]
  rw [if_pos ⟨hx, hw⟩]

/-- Claim C1 as stated (MSB-first unpacking) is false: with the single
payload byte `0x80` (only the most significant bit set), the claim predicts
the leftmost pixel receives the foreground color, but the code leaves it
untouched (value 7) — the set bit 7 actually drives pixel 7. -/
theorem bitmap_msb_claim_counterexample :
    ¬(∀ (f : Font) (dst : SSFNDst) (w : Int) (k : Nat) (pB : Int) (frg0 : Nat)
        (mem : Int → Nat) (log : List PixelWrite) (t : Nat), t < k →
        0 ≤ dst.x + (t : Int) → (w = 0 ∨ dst.x + (t : Int) < w) →
        (bitRowGo f dst w k 0 pB 1 frg0 mem log).2.2.1 (pB + 4 * (t : Int)) =
          if fbyte f (frg0 + t / 8) &&& (1 <<< (7 - t % 8)) ≠ 0 then dst.fg
          else if dst.bg ≠ 0 then dst.bg else mem (pB + 4 * (t : Int))) := by
  intro h
  have h1 := h fontBit80 dstT1 0 8 0 0 (fun _ => 7) [] 0 (by decide) (by decide) (Or.inl rfl)
  exact absurd h1 (by decide)

/-- Witness for `bitmap_unpack_lsb_first`: payload byte `0x01` paints the
leftmost pixel of the row with the foreground color. -/
theorem bitmap_unpack_lsb_first_witness :
    (0 : Nat) < 8 ∧ (0 : Int) ≤ dstT1.x + ((0 : Nat) : Int) ∧
      (bitRowGo fontBit dstT1 0 8 0 0 1 0 (fun _ => 7) []).2.2.1 (0 + 4 * ((0 : Nat) : Int)) =
        (if fbyte fontBit (0 + 0 / 8) &&& (1 <<< (0 % 8)) ≠ 0 then dstT1.fg
         else if dstT1.bg ≠ 0 then dstT1.bg else (fun _ => 7 : Int → Nat) (0 + 4 * ((0 : Nat) : Int))) :=
  ⟨by decide, by decide,
    bitmap_unpack_lsb_first fontBit dstT1 0 8 0 0 (fun _ => 7) [] 0 (by decide) (by decide)
      (Or.inl rfl)⟩

/-- Claim C4 as stated is false: the bitmap rows are not clipped to the
glyph's declared cell width.  `fontG`'s glyph declares cell width
`chr[2] = 1` but its fragment rows are 8 pixels wide; with unbounded
destination width the blitter stores pixel column 5, past the declared cell
width. -/
theorem render_cell_width_claim_counterexample :
    ¬(∀ (f : Font) (dst : SSFNDst) (w : Int) (chrOff : Nat),
        ∀ e ∈ (ssfn_render f dst w chrOff).log,
          (w ≠ 0 → e.col < w) ∧ e.col < dst.x + (fbyte f (chrOff + 2) : Int)) := by
  intro h
  have h1 := (h fontG dstT 0 0 ⟨20, 5, true, 1⟩ (by decide)).2
  exact absurd h1 (by decide)

/-- Witness for `render_writes_below_width`: with destination width 3, the
store at column 2 is logged and its column is below the width. -/
theorem render_writes_below_width_witness :
    (⟨8, 2, true, 1⟩ : PixelWrite) ∈ (ssfn_render fontG dstW3 3 0).log ∧ (3 : Int) ≠ 0 ∧
      (⟨8, 2, true, 1⟩ : PixelWrite).col < 3 := by
  have hmem : (⟨8, 2, true, 1⟩ : PixelWrite) ∈ (ssfn_render fontG dstW3 3 0).log := by decide
  exact ⟨hmem, by decide, render_writes_below_width fontG dstW3 3 0 _ hmem (by decide)⟩

/-- Witness for `render_transparent_no_bleed`: rendering `fontG`'s glyph on
a transparent background changes the pixel at byte address 0, and that
change comes from a set foreground bit. -/
theorem render_transparent_no_bleed_witness :
    dstT.bg = 0 ∧ (ssfn_render fontG dstT 0 0).dst.mem 0 ≠ dstT.mem 0 ∧
      ∃ e ∈ (ssfn_render fontG dstT 0 0).log, e.addr = 0 ∧ e.fgBit = true := by
  have hne : (ssfn_render fontG dstT 0 0).dst.mem 0 ≠ dstT.mem 0 := by decide
  exact ⟨rfl, hne, render_transparent_no_bleed fontG dstT 0 0 rfl 0 hne⟩

/-- With no vertical clipping the bitmap row loop runs all its iterations
and advances the local row counter by exactly the initial row count. -/
theorem bitRows_rows (f : Font) (dst : SSFNDst) (w : Int) (k s : Nat) (hh : dst.h = 0) :
    ∀ (jc : Nat) (y o : Int) (m frg : Nat) (mem : Int → Nat) (log : List PixelWrite),
      (bitRows f dst w k s jc y o m frg mem log).y = y + (jc : Int) := by
  intro jc
  induction jc with
  | zero => intro y o m frg mem log; simp [bitRows]
  | succ jc ih =>
    intro y o m frg mem log
    simp only [bitRows]
    rw [if_pos (Or.inl hh)]
    rw [ih]
    push_cast
    ring

/-- With unbounded destination width, a non-negative cursor column and an
opaque background, every pixel of the row window is stored: the log grows by
exactly `rem` entries. -/
theorem bitRowGo_len (f : Font) (dst : SSFNDst) (w : Int) (hw : w = 0) (hx : 0 ≤ dst.x)
    (hz : dst.bg ≠ 0) :
    ∀ (rem l : Nat) (pB : Int) (m frg : Nat) (mem : Int → Nat) (log : List PixelWrite),
      (bitRowGo f dst w rem l pB m frg mem log).2.2.2.length = rem + log.length := by
  intro rem
  induction rem with
  | zero => intro l pB m frg mem log; simp [bitRowGo]
  | succ rem ih =>
    intro l pB m frg mem log
    have hg : 0 ≤ dst.x + (l : Int) ∧ (w = 0 ∨ dst.x + (l : Int) < w) :=
      ⟨by positivity, Or.inl hw⟩
    simp only [bitRowGo]
    rw [if_pos hg]
    by_cases hbit : fbyte f (if 0x80 < m then frg + 1 else frg) &&&
        (if 0x80 < m then 1 else m) ≠ 0
    · rw [if_pos hbit, ih]
      simp only [List.length_cons]
      omega
    · rw [if_neg hbit, if_pos hz, ih]
      simp only [List.length_cons]
      omega

/-- Under the same conditions, the bitmap row loop with `jc` rows and `k`
pixels per row performs exactly `jc * k` stores. -/
theorem bitRows_len (f : Font) (dst : SSFNDst) (w : Int) (k s : Nat) (hh : dst.h = 0)
    (hw : w = 0) (hx : 0 ≤ dst.x) (hz : dst.bg ≠ 0) :
    ∀ (jc : Nat) (y o : Int) (m frg : Nat) (mem : Int → Nat) (log : List PixelWrite),
      (bitRows f dst w k s jc y o m frg mem log).log.length = jc * k + log.length := by
  intro jc
  induction jc with
  | zero => intro y o m frg mem log; simp [bitRows]
  | succ jc ih =>
    intro y o m frg mem log
    simp only [bitRows]
    rw [if_pos (Or.inl hh)]
    rw [ih, bitRowGo_len f dst w hw hx hz]
    ring_nf

/-- Claim C6 (amended): a bitmap fragment with row-count byte `frg[1]` and
descriptor `frg[0]` is decoded as `frg[1] + 1` rows (the row-count field
stores one less than the number of rows), each `((frg[0] & 0x1F) + 1) << 3`
pixels wide — shown here for an unclipped destination (`h = 0`, `w = 0`,
cursor column non-negative, opaque background): the row counter advances by
`frg[1] + 1` and exactly `(frg[1] + 1) * (((frg[0] & 0x1F) + 1) << 3)` pixel
stores are performed. -/
theorem bitmap_fragment_row_count (f : Font) (dst : SSFNDst) (w : Int) (s frg0 : Nat)
    (y o : Int) (mem : Int → Nat) (log : List PixelWrite)
    (hh : dst.h = 0) (hw : w = 0) (hx : 0 ≤ dst.x) (hz : dst.bg ≠ 0) :
    (bitRows f dst w (((fbyte f frg0 &&& 0x1F) + 1) <<< 3) s (fbyte f (frg0 + 1) + 1)
        y o 1 (frg0 + 2) mem log).y = y + ((fbyte f (frg0 + 1) + 1 : Nat) : Int) ∧
      (bitRows f dst w (((fbyte f frg0 &&& 0x1F) + 1) <<< 3) s (fbyte f (frg0 + 1) + 1)
          y o 1 (frg0 + 2) mem log).log.length =
        (fbyte f (frg0 + 1) + 1) * (((fbyte f frg0 &&& 0x1F) + 1) <<< 3) + log.length :=
  ⟨bitRows_rows f dst w _ s hh _ y o 1 _ mem log,
    bitRows_len f dst w _ s hh hw hx hz _ y o 1 _ mem log⟩

/-- Claim C6 as stated is false: the decoder does not draw `frg[1]` rows but
`frg[1] + 1`.  For `fontG`'s fragment the row-count byte is 0, yet one row
is drawn: the row counter advances by 1, not 0. -/
theorem fragment_row_count_claim_counterexample :
    ¬(∀ (f : Font) (dst : SSFNDst) (w : Int) (s frg0 : Nat) (y o : Int)
        (mem : Int → Nat) (log : List PixelWrite), dst.h = 0 →
        (bitRows f dst w (((fbyte f frg0 &&& 0x1F) + 1) <<< 3) s (fbyte f (frg0 + 1) + 1)
            y o 1 (frg0 + 2) mem log).y = y + ((fbyte f (frg0 + 1) : Nat) : Int)) := by
  intro h
  have h1 := h fontG dstT 0 8 11 0 0 (fun _ => 0) [] rfl
  exact absurd h1 (by decide)

/-- Witness for `bitmap_fragment_row_count`: `fontG`'s fragment (row-count
byte 0, 8-pixel rows) on an opaque background draws 1 row of 8 stores. -/
theorem bitmap_fragment_row_count_witness :
    dstBg.h = 0 ∧ dstBg.bg ≠ 0 ∧
      (bitRows fontG dstBg 0 (((fbyte fontG 11 &&& 0x1F) + 1) <<< 3) 8
          (fbyte fontG (11 + 1) + 1) 0 0 1 (11 + 2) (fun _ => 0) []).y =
        0 + ((fbyte fontG (11 + 1) + 1 : Nat) : Int) ∧
      (bitRows fontG dstBg 0 (((fbyte fontG 11 &&& 0x1F) + 1) <<< 3) 8
          (fbyte fontG (11 + 1) + 1) 0 0 1 (11 + 2) (fun _ => 0) []).log.length =
        (fbyte fontG (11 + 1) + 1) * (((fbyte fontG 11 &&& 0x1F) + 1) <<< 3) +
          ([] : List PixelWrite).length := by
  have h := bitmap_fragment_row_count fontG dstBg 0 8 11 0 0 (fun _ => 0) [] rfl rfl
    (by decide) (by decide)
  exact ⟨rfl, by decide, h.1, h.2⟩

/-- Claim C7: with a null font, a wrong magic byte, a null destination
pointer, or a zero pitch, `ssfn_putc` returns `SSFN_ERR_INVINP` and changes
nothing — the check at lines 273-274 runs before the table scan, so the
result does not depend on the character table at all. -/
theorem putc_invalid_input (src : Option Font) (dst : SSFNDst) (u : Nat)
    (h : ssfn_badInput src dst) :
    ssfn_putc src dst u = ⟨SSFN_ERR_INVINP, dst, false⟩ := by
  cases src with
  | none => rfl
  | some f =>
    have h' : fbyte f 0 ≠ 83 ∨ fbyte f 1 ≠ 70 ∨ fbyte f 2 ≠ 78 ∨ fbyte f 3 ≠ 50 ∨
        dst.ptrNull = true ∨ dst.p = 0 := h
    simp only [ssfn_putc]
    rw [if_pos h']

/-- Witness for `putc_invalid_input`: a null font pointer. -/
theorem putc_invalid_input_witness :
    ssfn_badInput none dstA ∧ ssfn_putc none dstA 65 = ⟨SSFN_ERR_INVINP, dstA, false⟩ :=
  ⟨trivial, putc_invalid_input none dstA 65 trivial⟩

/-- Claim C8: for carriage return (13) or newline (10) with otherwise valid
inputs, `ssfn_putc` resets the cursor `x` to 0 and returns `SSFN_OK`, for
every character table content (the theorem quantifies over every font). -/
theorem putc_cr_lf (f : Font) (dst : SSFNDst) (u : Nat)
    (hm0 : fbyte f 0 = 83) (hm1 : fbyte f 1 = 70) (hm2 : fbyte f 2 = 78) (hm3 : fbyte f 3 = 50)
    (hpn : dst.ptrNull = false) (hp : dst.p ≠ 0) (hu : u = 13 ∨ u = 10) :
    (ssfn_putc (some f) dst u).ret = SSFN_OK ∧ (ssfn_putc (some f) dst u).dst.x = 0 := by
  have hbad : ¬(fbyte f 0 ≠ 83 ∨ fbyte f 1 ≠ 70 ∨ fbyte f 2 ≠ 78 ∨ fbyte f 3 ≠ 50 ∨
      dst.ptrNull = true ∨ dst.p = 0) := by
    simp [hm0, hm1, hm2, hm3, hpn, hp]
  simp only [ssfn_putc]
  rw [if_neg hbad, if_pos hu]
  exact ⟨rfl, rfl⟩

/-- Witness for `putc_cr_lf`: carriage return on `fontA`. -/
theorem putc_cr_lf_witness :
    ((13 : Nat) = 13 ∨ (13 : Nat) = 10) ∧ (ssfn_putc (some fontA) dstA 13).ret = SSFN_OK ∧
      (ssfn_putc (some fontA) dstA 13).dst.x = 0 := by
  have h := putc_cr_lf fontA dstA 13 (by decide) (by decide) (by decide) (by decide) rfl
    (by decide) (Or.inl rfl)
  exact ⟨Or.inl rfl, h.1, h.2⟩

/-- The `ub` field of the result is exactly the instrumentation flag. -/
theorem putc_ub_eq (f : Font) (dst : SSFNDst) (u : Nat)
    (hbad : ¬(fbyte f 0 ≠ 83 ∨ fbyte f 1 ≠ 70 ∨ fbyte f 2 ≠ 78 ∨ fbyte f 3 ≠ 50 ∨
      dst.ptrNull = true ∨ dst.p = 0)) :
    (ssfn_putc (some f) dst u).ub =
      ssfn_ubFlag f u (if dst.w < 0 then -dst.w else dst.w) (fontHeight f)
        (scanF f u 0x110000 (charactersOffs f) 0) := by
  simp only [ssfn_putc]
  rw [if_neg hbad]
  by_cases h13 : u = 13 ∨ u = 10
  · rw [if_pos h13]
  · rw [if_neg h13]
    cases scanF f u 0x110000 (charactersOffs f) 0 with
    | none => rfl
    | some c => rfl

/-- Claim C10: with valid inputs, the control block evaluates
`ssfn_dst.h % ssfn_src->height` on every call and `ssfn_dst.x % chr[4]` on
the tab path; neither modulo has a zero divisor exactly when the font's cell
height is nonzero and, whenever a located tab glyph is processed with a
nonzero destination width, that glyph's horizontal advance `chr[4]` is
nonzero. -/
theorem putc_mod_div_zero_iff (f : Font) (dst : SSFNDst) (u : Nat)
    (hm0 : fbyte f 0 = 83) (hm1 : fbyte f 1 = 70) (hm2 : fbyte f 2 = 78) (hm3 : fbyte f 3 = 50)
    (hpn : dst.ptrNull = false) (hp : dst.p ≠ 0) :
    (ssfn_putc (some f) dst u).ub = false ↔
      (fontHeight f ≠ 0 ∧
        ∀ c, scanF f u 0x110000 (charactersOffs f) 0 = some c →
          (if dst.w < 0 then -dst.w else dst.w) ≠ 0 → u = 9 → fbyte f (c + 4) ≠ 0) := by
  have hbad : ¬(fbyte f 0 ≠ 83 ∨ fbyte f 1 ≠ 70 ∨ fbyte f 2 ≠ 78 ∨ fbyte f 3 ≠ 50 ∨
      dst.ptrNull = true ∨ dst.p = 0) := by
    simp [hm0, hm1, hm2, hm3, hpn, hp]
  rw [putc_ub_eq f dst u hbad]
  cases hc : scanF f u 0x110000 (charactersOffs f) 0 with
  | none =>
    by_cases hh : fontHeight f = 0 <;> simp [ssfn_ubFlag, hh]
  | some c =>
    simp only [ssfn_ubFlag, Option.some.injEq]
    by_cases hh : fontHeight f = 0
    · simp [hh]
    · rw [if_neg hh]
      by_cases hcond : (if dst.w < 0 then -dst.w else dst.w) ≠ 0 ∧ u = 9 ∧ fbyte f (c + 4) = 0
      · rw [if_pos hcond]
        constructor
        · intro hfalse
          exact absurd hfalse (by decide)
        · rintro ⟨_, hall⟩
          exact absurd hcond.2.2 (hall c rfl hcond.1 hcond.2.1)
      · rw [if_neg hcond]
        constructor
        · intro _
          refine ⟨hh, ?_⟩
          intro c' hcc hwne hu9
          have hc' : c' = c := by
            cases hcc
            rfl
          subst hc'
          intro h0
          exact hcond ⟨hwne, hu9, h0⟩
        · intro _
          rfl

/-- Witness for `putc_mod_div_zero_iff`: `fontA` has cell height 2 and code
point 65 has no table entry, so no modulo in the call divides by zero. -/
theorem putc_mod_div_zero_iff_witness :
    (ssfn_putc (some fontA) dstA 65).ub = false := by
  apply (putc_mod_div_zero_iff fontA dstA 65 (by decide) (by decide) (by decide) (by decide)
    rfl (by decide)).mpr
  refine ⟨by decide, ?_⟩
  intro c hc
  have hn : scanF fontA 65 0x110000 (charactersOffs fontA) 0 = none := by decide
  rw [hn] at hc
  exact absurd hc (by simp)

end SSFN
